import Mathlib

/-!
Verification of the CogniWeave content transformation engine.

The definitions below are a shallow embedding of the transformation
service (vocabulary simplification, paragraph chunking, analogy
annotation, visual-element classification, orchestration) and of the
profile-generation fallback.  Text is modelled as `List Char`; HTML
parsing and DOM mutation are delegated to an external markup
collaborator, so `chunkParagraphs` and the orchestrator operate on the
list of paragraph text units that collaborator provides.
-/

set_option maxRecDepth 100000

namespace CogniWeave

/-- Text is modelled as a list of characters. -/
abbrev Str := List Char

/-! ## Data model: cognitive profile and visual elements -/

/-- Distraction-filter settings of a cognitive profile. -/
structure DistractionFilter where
  enabled : Bool
  sensitivity : String
  deriving DecidableEq, Repr

/-- Visual settings of a cognitive profile. -/
structure Visuals where
  distractionFilter : DistractionFilter
  deriving DecidableEq, Repr

/-- Chunking settings: `maxLength` is optional because the JS object may
lack the field (reads yield `undefined`, and every numeric comparison
with `undefined` is false). -/
structure ChunkingCfg where
  strategy : String
  maxLength : Option Int
  deriving DecidableEq, Repr

/-- Vocabulary settings. -/
structure VocabularyCfg where
  simplificationLevel : String
  deriving DecidableEq, Repr

/-- Text settings of a cognitive profile. -/
structure TextCfg where
  chunking : ChunkingCfg
  vocabulary : VocabularyCfg
  deriving DecidableEq, Repr

/-- Simplification settings. -/
structure SimplificationCfg where
  useAnalogies : Bool
  deriving DecidableEq, Repr

/-- The cognitive profile driving all transformations. -/
structure CognitiveProfile where
  text : TextCfg
  simplification : SimplificationCfg
  visuals : Visuals
  deriving DecidableEq, Repr

/-- A visual element under classification.  The source reads the field
`element.semantic_context`; `position` is optional (an absent JS field
compares unequal to every string). -/
structure VisualElement where
  id : String
  semantic_context : String
  position : Option String
  deriving DecidableEq, Repr

/-- Output of classification.  In the source the disabled-filter path
builds objects `{id, action}` without a `reasoning` key, hence
`reasoning` is an `Option`. -/
structure VisualAction where
  id : String
  action : String
  reasoning : Option String
  deriving DecidableEq, Repr

/-- Result envelope of `analyzeVisuals`. -/
structure VisualAnalysis where
  status : String
  visualActions : List VisualAction
  filterEnabled : Bool
  deriving DecidableEq, Repr

/-! ## Visual classifier -/

/-- The per-element `switch` of `analyzeVisuals`: maps
`(semantic_context, sensitivity, position)` to an action string. -/
def classifyAction (ctx sensitivity : String) (position : Option String) : String :=
  if ctx = "sidebar_advertisement" ∨ ctx = "popup_advertisement" ∨
      ctx = "newsletter_signup" then
    if sensitivity = "high" then "hide" else "fade_to_30_percent_opacity"
  else if ctx = "decorative_stock_photo" then
    if sensitivity = "high" then "fade_to_20_percent_opacity"
    else if sensitivity = "medium" then "fade_to_50_percent_opacity"
    else "keep_visible"
  else if ctx = "main_article_figure" ∨ ctx = "educational_content" then
    "keep_visible"
  else if sensitivity = "high" ∧ position = some "sidebar" then
    "fade_to_40_percent_opacity"
  else "keep_visible"

/-- `getActionReasoning` of the source: a static template keyed by the
chosen action.  An absent `position` prints as `undefined` in JS. -/
def getActionReasoning (el : VisualElement) (action sensitivity : String) : String :=
  if action = "hide" then
    "Hidden due to " ++ sensitivity ++ " sensitivity to " ++ el.semantic_context
  else if action = "keep_visible" then
    "Kept visible - essential " ++ el.semantic_context
  else if action = "fade_to_20_percent_opacity" then
    "Faded to reduce visual distraction from " ++ el.semantic_context
  else if action = "fade_to_30_percent_opacity" then
    "Moderately faded - " ++ el.semantic_context ++ " with " ++ sensitivity ++ " sensitivity"
  else if action = "fade_to_40_percent_opacity" then
    "Lightly faded - " ++ (el.position.getD "undefined") ++ " content with " ++
      sensitivity ++ " sensitivity"
  else if action = "fade_to_50_percent_opacity" then
    "Reduced opacity - decorative content with " ++ sensitivity ++ " sensitivity"
  else action ++ " applied to " ++ el.semantic_context

/-- `analyzeVisuals` of the transformation service.  When the filter is
disabled every element maps to `keep_visible` without a reasoning field;
otherwise each element goes through the decision table and gets a
reasoning string. -/
def analyzeVisuals (elements : List VisualElement) (profile : CognitiveProfile) :
    VisualAnalysis :=
  let f := profile.visuals.distractionFilter
  if f.enabled = false then
    { status := "success"
      visualActions := elements.map (fun el =>
        { id := el.id, action := "keep_visible", reasoning := none })
      filterEnabled := false }
  else
    { status := "success"
      visualActions := elements.map (fun el =>
        let a := classifyAction el.semantic_context f.sensitivity el.position
        { id := el.id, action := a,
          reasoning := some (getActionReasoning el a f.sensitivity) })
      filterEnabled := true }

/-! ## Case-insensitive whole-word matching

Embedding of the regexes `new RegExp("\\b" + term + "\\b", "gi")` used
with `test` and `replace`.  Every term in the repository's tables starts
and ends with a word character, so `\b` before the match means "previous
character absent or not a word character", and `\b` after the match
means "next character absent or not a word character".  JS `replace`
with a global regex scans the original string left to right and splices
the replacement for every non-overlapping match. -/

/-- JS regex `\w`: ASCII letters, digits and underscore. -/
def wordChar (c : Char) : Bool := c.isAlphanum || c = '_'

/-- Case-insensitive character comparison (the `i` flag; `Char.toLower`
is ASCII, which covers every term in the tables). -/
def ciChar (a b : Char) : Bool := a.toLower = b.toLower

/-- Does `s` start with the pattern `pat`, case-insensitively? -/
def ciHead : Str → Str → Bool
  | [], _ => true
  | _ :: _, [] => false
  | p :: ps, c :: cs => ciChar c p && ciHead ps cs

/-- Case-insensitive equality of two character lists. -/
def ciEq : Str → Str → Bool
  | [], [] => true
  | _ :: _, [] => false
  | [], _ :: _ => false
  | a :: as, b :: bs => ciChar a b && ciEq as bs

/-- The `\b` before a match: start of input or a non-word character. -/
def boundaryOkBefore : Option Char → Bool
  | none => true
  | some c => !wordChar c

/-- The `\b` after a match: end of input or a non-word character. -/
def boundaryOkAfter : Str → Bool
  | [] => true
  | c :: _ => !wordChar c

/-- Does `\b term \b` match at the start of `s`, where `prev` is the
character just before `s` in the full input (none at the start)? -/
def matchAt (term : Str) (prev : Option Char) (s : Str) : Bool :=
  boundaryOkBefore prev && ciHead term s && boundaryOkAfter (s.drop term.length)

/-- `regex.test`: does `\b term \b` match anywhere in `s`? -/
def hasScan (term : Str) (prev : Option Char) : Str → Bool
  | [] => false
  | c :: cs => matchAt term prev (c :: cs) || hasScan term (some c) cs

/-- `regex.test` on a whole input string. -/
def hasWholeWordCI (term s : Str) : Bool := hasScan term none s

/-- `String.prototype.replace` with a global `\b term \b` regex:
replace every match of `term` in `s` by `rep`, scanning the original
input left to right.  Every step consumes at least one character of `s`
(the terms in the tables are nonempty), so recursion on a fuel of
`s.length` computes the full scan. -/
def replaceScan (fuel : Nat) (term rep : Str) (prev : Option Char) (s : Str) : Str :=
  match fuel, s with
  | 0, s => s
  | _ + 1, [] => []
  | fuel + 1, c :: cs =>
    if matchAt term prev (c :: cs) then
      rep ++ replaceScan fuel term rep (((c :: cs).take term.length).getLast?)
        ((c :: cs).drop term.length)
    else
      c :: replaceScan fuel term rep (some c) cs

/-- Whole-input form of `replaceScan`. -/
def replaceAllWW (term rep s : Str) : Str := replaceScan s.length term rep none s

/-! ## Lexical substitution table and vocabulary simplifier -/

/-- The static `vocabularyMappings` tables from
`src/backend/src/utils/sampleData.js`, in `Object.entries` (insertion)
order; an unknown tier yields the empty table (`|| {}` in the source). -/
def vocabularyMappings (level : String) : List (String × String) :=
  if level = "basic" then
    [("ubiquitous", "everywhere"), ("proliferation", "spread"),
     ("pedagogical", "teaching"), ("paradigms", "methods"),
     ("necessitating", "requiring"), ("methodologies", "ways"),
     ("accommodate", "fit"), ("cognitive", "thinking"),
     ("frameworks", "structures"), ("leverage", "use"),
     ("emergent", "new"), ("ecosystems", "systems"),
     ("fundamental", "basic"), ("subatomic", "very tiny"),
     ("unprecedented", "never seen before"), ("epoch", "time period"),
     ("encapsulates", "shows"), ("antiquity", "ancient times"),
     ("epitomized", "showed perfectly"), ("intricate", "complex"),
     ("whereby", "where"), ("biochemical", "chemical in living things"),
     ("typically", "usually"),
     ("photophosphorylation", "light-powered chemical process")]
  else if level = "intermediate" then
    [("ubiquitous", "widespread"), ("proliferation", "growth"),
     ("pedagogical", "educational"), ("paradigms", "approaches"),
     ("methodologies", "techniques"), ("cognitive", "mental"),
     ("leverage", "utilize"), ("emergent", "emerging"),
     ("fundamental", "essential"), ("unprecedented", "extraordinary"),
     ("encapsulates", "represents"), ("epitomized", "represented"),
     ("intricate", "detailed"), ("biochemical", "biological chemical")]
  else []

/-- The replacement text spliced in for a matched term: the
`<span class="simplified-word" ...>` template of `simplifyVocabulary`. -/
def spanFor (complex simple : String) : Str :=
  ("<span class=\"simplified-word\" data-original=\"" ++ complex ++
    "\" title=\"Original: " ++ complex ++ "\">" ++ simple ++ "</span>").toList

/-- The log entry pushed for a replaced term. -/
def vocabLogEntry (complex simple : String) : String :=
  "\"" ++ complex ++ "\" → \"" ++ simple ++ "\""

/-- One iteration of the `Object.entries(mappings).forEach` loop of
`simplifyVocabulary`: test, then replace globally and log once. -/
def simplifyStep (acc : Str × List String) (pair : String × String) :
    Str × List String :=
  if hasWholeWordCI pair.1.toList acc.1 then
    (replaceAllWW pair.1.toList (spanFor pair.1 pair.2) acc.1,
      acc.2 ++ [vocabLogEntry pair.1 pair.2])
  else acc

/-- `simplifyVocabulary` of the transformation service. -/
def simplifyVocabulary (content : Str) (level : String) : Str × List String :=
  (vocabularyMappings level).foldl simplifyStep (content, [])

/-! ## Analogy annotator -/

/-- The static `analogyMap` of `addAnalogies`, in insertion order. -/
def analogyMap : List (String × String) :=
  [("quantum mechanics",
    "Think of quantum mechanics like a coin that spins in the air - until it lands, it\x27s both heads and tails at the same time."),
   ("photosynthesis",
    "Photosynthesis is like a plant\x27s kitchen where sunlight is the energy source to cook sugar from air and water."),
   ("Renaissance",
    "The Renaissance was like Europe waking up from a long sleep and rediscovering the wisdom of ancient Greece and Rome."),
   ("biochemical process",
    "A biochemical process is like a recipe that living things follow to make the chemicals they need."),
   ("cognitive frameworks",
    "Cognitive frameworks are like different colored glasses - each person sees and understands the world through their own unique lens.")]

/-- The inline marker spliced in for a matched concept. -/
def analogyMarker (concept analogy : String) : Str :=
  (concept ++ " <span class=\"analogy-tooltip\" title=\"" ++ analogy ++
    "\">💡</span>").toList

/-- The log entry pushed for an annotated concept. -/
def analogyLogEntry (concept : String) : String :=
  "Added analogy for \"" ++ concept ++ "\""

/-- One iteration of the `Object.entries(analogyMap).forEach` loop of
`addAnalogies`: test, then replace globally and log once. -/
def analogyStep (acc : Str × List String) (pair : String × String) :
    Str × List String :=
  if hasWholeWordCI pair.1.toList acc.1 then
    (replaceAllWW pair.1.toList (analogyMarker pair.1 pair.2) acc.1,
      acc.2 ++ [analogyLogEntry pair.1])
  else acc

/-- `addAnalogies` of the transformation service. -/
def addAnalogies (content : Str) : Str × List String :=
  analogyMap.foldl analogyStep (content, [])

/-! ## Sentence splitter

Embedding of `splitIntoSentences`: `text.match(/[^\.!?]+[\.!?]+/g)`
returns, left to right, every maximal run of non-terminator characters
followed by a maximal run of terminators (`.`, `!`, `?`); positions
before a terminator or in a trailing terminator-free run never match.
Each match is trimmed; if there is no match at all the whole (untrimmed)
text is the single sentence. -/

/-- Sentence terminator characters of the regex class `[.!?]`. -/
def isTermChar (c : Char) : Bool := c = '.' || c = '!' || c = '?'

/-- The global regex scan.  Each iteration emits one match and consumes
at least two characters, so a fuel of `s.length` computes the scan. -/
def sentencesGo (fuel : Nat) (s : Str) : List Str :=
  match fuel with
  | 0 => []
  | fuel + 1 =>
    if s.dropWhile isTermChar = [] then []
    else if (s.dropWhile isTermChar).dropWhile (fun x => !isTermChar x) = [] then
      []
    else
      ((s.dropWhile isTermChar).takeWhile (fun x => !isTermChar x) ++
          ((s.dropWhile isTermChar).dropWhile
            (fun x => !isTermChar x)).takeWhile isTermChar) ::
        sentencesGo fuel
          (((s.dropWhile isTermChar).dropWhile
            (fun x => !isTermChar x)).dropWhile isTermChar)

/-- All matches of `/[^.!?]+[.!?]+/g` in `s`. -/
def sentencesCore (s : Str) : List Str := sentencesGo s.length s

/-- JS `String.prototype.trim`. -/
def trimStr (s : Str) : Str :=
  ((s.dropWhile Char.isWhitespace).reverse.dropWhile Char.isWhitespace).reverse

/-- `splitIntoSentences` of the transformation service. -/
def splitIntoSentences (s : Str) : List Str :=
  match sentencesCore s with
  | [] => [s]
  | l => l.map trimStr

/-! ## Paragraph chunker

`chunkParagraphs` walks the `<p>` units the markup collaborator
extracts.  The inner `for (let i = 0; i < sentences.length; i +=
maxSentences)` loop is embedded with explicit fuel because for
`maxSentences ≤ 0` it never terminates; the pure `chunksOf` form is the
loop's value for `maxSentences ≥ 1`. -/

/-- `Array.prototype.slice` index normalisation. -/
def jsSliceNorm (n : Nat) (i : Int) : Nat :=
  if i < 0 then (max ((n : Int) + i) 0).toNat else min i.toNat n

/-- `sentences.slice(i, j)` with JS index semantics. -/
def jsSlice {α : Type} (l : List α) (i j : Int) : List α :=
  (l.take (jsSliceNorm l.length j)).drop (jsSliceNorm l.length i)

/-- `sentences.slice(i, i + maxSentences).join(" ")`. -/
def joinSpace : List Str → Str
  | [] => []
  | [s] => s
  | s :: rest => s ++ (' ' :: joinSpace rest)

/-- The chunk-building `for` loop, one fuel per iteration.  `none`
means the fuel ran out, i.e. the loop still had not finished. -/
def chunkLoop (fuel : Nat) (m i : Int) (sents : List Str) : Option (List Str) :=
  match fuel with
  | 0 => none
  | fuel + 1 =>
    if i < (sents.length : Int) then
      match chunkLoop fuel m (i + m) sents with
      | none => none
      | some rest => some (joinSpace (jsSlice sents i (i + m)) :: rest)
    else some []

/-- One paragraph of `chunkParagraphs`: split only when the sentence
count exceeds `maxSentences`; the Bool is this paragraph's contribution
to `chunksCreated`. -/
def chunkParagraphFuel (fuel : Nat) (m : Int) (para : Str) :
    Option (List Str × Bool) :=
  let sents := splitIntoSentences para
  if (sents.length : Int) > m then
    match chunkLoop fuel m 0 sents with
    | none => none
    | some chunks => some (chunks, true)
  else some ([para], false)

/-- `chunkParagraphs` over the paragraph units, threading
`chunksCreated`. -/
def chunkParagraphsFuel (fuel : Nat) (m : Int) (paras : List Str) :
    Option (List Str × Nat) :=
  paras.foldl
    (fun acc p =>
      match acc with
      | none => none
      | some (out, k) =>
        match chunkParagraphFuel fuel m p with
        | none => none
        | some (ps, split) => some (out ++ ps, k + (if split then 1 else 0)))
    (some ([], 0))

/-- Grouping into consecutive runs of at most `m` elements; one fuel
per produced group, so `l.length` fuel suffices when `m ≥ 1`. -/
def chunksGo {α : Type} (fuel m : Nat) (l : List α) : List (List α) :=
  match fuel, l with
  | 0, _ => []
  | _ + 1, [] => []
  | fuel + 1, l => l.take m :: chunksGo fuel m (l.drop m)

/-- Pure grouping form of the chunk loop (meaningful for `m ≥ 1`). -/
def chunksOf {α : Type} (m : Nat) (l : List α) : List (List α) :=
  chunksGo l.length m l

/-- Pure per-paragraph chunking for `maxSentences = m ≥ 1`. -/
def chunkParagraph (m : Nat) (para : Str) : List Str × Bool :=
  let sents := splitIntoSentences para
  if sents.length > m then ((chunksOf m sents).map joinSpace, true)
  else ([para], false)

/-- Pure `chunkParagraphs` for `maxSentences = m ≥ 1`. -/
def chunkParagraphs (m : Nat) (paras : List Str) : List Str × Nat :=
  paras.foldl
    (fun acc p =>
      (acc.1 ++ (chunkParagraph m p).1,
        acc.2 + (if (chunkParagraph m p).2 then 1 else 0)))
    ([], 0)

/-! ## Transformation orchestrator

`transformText` runs vocabulary simplification, chunking and analogy
annotation inside one `try`; any thrown error is caught and the
original content is returned with an error status.  Reading a field of
a missing profile sub-object is the throw the source can actually hit,
so the profile's sub-objects are `Option`s here.  The HTML string is
abstracted (per the markup collaborator) as the list of its paragraph
text units; `none` as the overall result models the non-terminating
chunk loop, which is a hang rather than a caught error. -/

/-- A profile as received, before any validation: sub-objects may be
absent. -/
structure RawTextCfg where
  chunking : Option ChunkingCfg
  vocabulary : Option VocabularyCfg
  deriving DecidableEq, Repr

/-- Raw profile given to `transformText`. -/
structure RawProfile where
  text : Option RawTextCfg
  simplification : Option SimplificationCfg
  deriving DecidableEq, Repr

/-- Result envelope of `transformText`. -/
structure TransformResult where
  status : String
  transformedContent : List Str
  transformations : List String
  deriving DecidableEq, Repr

/-- Step 3 of the pipeline (analogies), including the read of
`profile.simplification.useAnalogies` that throws when
`simplification` is absent. -/
def analogyStage (p : RawProfile) (acc : List Str × List String) :
    Except String (List Str × List String) :=
  match p.simplification with
  | none => Except.error "Cannot read properties of undefined"
  | some s =>
    if s.useAnalogies then
      Except.ok ((acc.1.map (fun para => (addAnalogies para).1)),
        acc.2 ++ (acc.1.map (fun para => (addAnalogies para).2)).flatten)
    else Except.ok acc

/-- The `try` block of `transformText`: `error e` is a thrown-and-caught
exception, `none` is the diverging chunk loop. -/
def transformTextCore (fuel : Nat) (content : List Str) (p : RawProfile) :
    Option (Except String (List Str × List String)) :=
  match p.text with
  | none => some (Except.error "Cannot read properties of undefined")
  | some t =>
    match t.vocabulary with
    | none => some (Except.error "Cannot read properties of undefined")
    | some v =>
      let step1 :=
        if v.simplificationLevel ≠ "none" then
          ((content.map (fun para =>
              (simplifyVocabulary para v.simplificationLevel).1)),
            (content.map (fun para =>
              (simplifyVocabulary para v.simplificationLevel).2)).flatten)
        else (content, [])
      match t.chunking with
      | none => some (Except.error "Cannot read properties of undefined")
      | some ch =>
        if ch.strategy = "sentence_limit" then
          match ch.maxLength with
          | none =>
            -- absent maxLength: `sentences.length > undefined` is false,
            -- nothing splits and `chunksCreated` is 0
            some (analogyStage p (step1.1, step1.2 ++ ["Chunked 0 paragraphs"]))
          | some m =>
            match chunkParagraphsFuel fuel m step1.1 with
            | none => none
            | some (c2, k) =>
              some (analogyStage p
                (c2, step1.2 ++ ["Chunked " ++ toString k ++ " paragraphs"]))
        else some (analogyStage p step1)

/-- `transformText` of the transformation service: catch any thrown
error and return the original content tagged `error`. -/
def transformText (fuel : Nat) (content : List Str) (p : RawProfile) :
    Option TransformResult :=
  match transformTextCore fuel content p with
  | some (Except.ok (c, log)) =>
    some { status := "success", transformedContent := c, transformations := log }
  | some (Except.error _) =>
    some { status := "error", transformedContent := content, transformations := [] }
  | none => none

/-! ## Profile generation fallback (`generateMockProfile`) -/

/-- Lowercasing, `String.prototype.toLowerCase` (ASCII suffices for the
tested phrases). -/
def lowerStr (s : Str) : Str := s.map Char.toLower

/-- Does `s` start with `pat` (case-sensitive)? -/
def startsWithStr : Str → Str → Bool
  | [], _ => true
  | _ :: _, [] => false
  | p :: ps, c :: cs => (p = c) && startsWithStr ps cs

/-- `String.prototype.includes`. -/
def containsSub (pat : Str) : Str → Bool
  | [] => pat.isEmpty
  | c :: cs => startsWithStr pat (c :: cs) || containsSub pat cs

/-- `answers.field?.toLowerCase().includes(phrase)`: false when the
field is absent (optional chaining). -/
def incl (field : Option String) (phrase : String) : Bool :=
  match field with
  | none => false
  | some a => containsSub phrase.toList (lowerStr a.toList)

/-- Onboarding answers consumed by the fallback generator. -/
structure OnboardingAnswers where
  q1_reading_style : Option String
  q2_distractions : Option String
  q3_complex_topics : Option String
  deriving DecidableEq, Repr

/-- `generateMockProfile` of `bedrockService`: a fixed default profile
overridden by independent keyword rules (metadata and display
preferences are pass-through and omitted). -/
def generateMockProfile (answers : OnboardingAnswers) : CognitiveProfile :=
  { text := {
      chunking := {
        strategy := "sentence_limit"
        maxLength := some (if incl answers.q1_reading_style "shorter" ||
            incl answers.q1_reading_style "2-3 sentences" then 3 else 4) }
      vocabulary := { simplificationLevel :=
        (if incl answers.q3_complex_topics "simple" ||
            incl answers.q3_complex_topics "basic" then "basic"
          else "intermediate") } }
    simplification := { useAnalogies :=
      (incl answers.q3_complex_topics "analog" ||
        incl answers.q3_complex_topics "example") }
    visuals := { distractionFilter :=
      (if incl answers.q2_distractions "very distracted" ||
          incl answers.q2_distractions "completely derail" then
        { enabled := true, sensitivity := "high" }
      else if incl answers.q2_distractions "distract" then
        { enabled := true, sensitivity := "medium" }
      else { enabled := false, sensitivity := "medium" }) } }

/-- A sample profile used by concrete instantiations below; only the
distraction-filter part varies. -/
def exProfile (enabled : Bool) (sensitivity : String) : CognitiveProfile :=
  { text := { chunking := { strategy := "sentence_limit", maxLength := some 4 }
              vocabulary := { simplificationLevel := "none" } }
    simplification := { useAnalogies := false }
    visuals := { distractionFilter := { enabled := enabled, sensitivity := sensitivity } } }

/-! ## Declarative whole-word occurrence

Specification-level counterpart of the scanning functions: a whole-word
case-insensitive occurrence of `term` is a decomposition
`pre ++ seg ++ post` with `seg` case-insensitively equal to `term` and
word boundaries on both sides. -/

/-- The character just before the position after `pre`, when the whole
input was preceded by `prev`. -/
def lastOr (prev : Option Char) (pre : Str) : Option Char :=
  match pre.getLast? with
  | some c => some c
  | none => prev

/-- Declarative whole-word case-insensitive occurrence of `term` in
`s`, with `prev` the character preceding `s` (none at the start). -/
def OccAt (term : Str) (prev : Option Char) (s : Str) : Prop :=
  ∃ pre seg post, s = pre ++ seg ++ post ∧ ciEq seg term = true ∧
    boundaryOkBefore (lastOr prev pre) = true ∧ boundaryOkAfter post = true

/-- Declarative whole-word case-insensitive occurrence in a whole
input. -/
def OccIn (term s : Str) : Prop := OccAt term none s

/-- A sentence that is nonempty and does not start with a terminator
character (the condition under which re-splitting a joined chunk
recovers exactly its sentences). -/
def headNotTerm (s : Str) : Bool :=
  match s with
  | [] => false
  | c :: _ => !isTermChar c

/-- Structure of a well-behaved extracted sentence: a nonempty
terminator-free body whose first character is neither a terminator nor
whitespace, followed by a nonempty run of terminators.  Trimmed matches
of the sentence regex have this shape exactly when they do not start
with a terminator. -/
def goodSentence (x : Str) : Prop :=
  ∃ a w t, x = (a :: w) ++ t ∧ isTermChar a = false ∧ a.isWhitespace = false ∧
    (∀ c ∈ w, isTermChar c = false) ∧ t ≠ [] ∧ (∀ c ∈ t, isTermChar c = true)

/-! ## Theorems -/

/-- Claim C1: for every element whose `semantic_context` is
`main_article_figure` or `educational_content` and for every profile
(any sensitivity, filter enabled or disabled), `analyzeVisuals` returns
`keep_visible` for that element. -/
theorem claim_C1 (elements : List VisualElement) (profile : CognitiveProfile)
    (i : Nat) (hi : i < elements.length)
    (hj : i < (analyzeVisuals elements profile).visualActions.length)
    (hctx : (elements.get ⟨i, hi⟩).semantic_context = "main_article_figure" ∨
      (elements.get ⟨i, hi⟩).semantic_context = "educational_content") :
    ((analyzeVisuals elements profile).visualActions.get ⟨i, hj⟩).action =
      "keep_visible" := by
  cases h : profile.visuals.distractionFilter.enabled with
  | false => simp [analyzeVisuals, h, List.getElem_map]
  | true =>
    simp only [List.get_eq_getElem] at hctx ⊢
    simp only [analyzeVisuals, h, Bool.true_eq_false, if_false, List.getElem_map]
    rcases hctx with hc | hc <;> rw [hc] <;> simp [classifyAction]

/-- Witness for C1 at a concrete educational element and an enabled
high-sensitivity profile. -/
theorem claim_C1_witness :
    ((analyzeVisuals [⟨"img1", "educational_content", none⟩]
        (exProfile true "high")).visualActions.get ⟨0, by decide⟩).action =
      "keep_visible" :=
  claim_C1 _ _ 0 (by decide) (by decide) (Or.inr rfl)

/-- Claim C7: if the distraction filter is disabled, every action
returned by `analyzeVisuals` is `keep_visible`. -/
theorem claim_C7 (elements : List VisualElement) (profile : CognitiveProfile)
    (h : profile.visuals.distractionFilter.enabled = false) :
    ∀ a ∈ (analyzeVisuals elements profile).visualActions,
      a.action = "keep_visible" := by
  intro a ha
  simp only [analyzeVisuals, h, if_true, eq_self_iff_true, List.mem_map] at ha
  obtain ⟨el, -, rfl⟩ := ha
  rfl

/-- Witness for C7 at a concrete element list and a disabled filter. -/
theorem claim_C7_witness :
    ((analyzeVisuals [⟨"ad1", "sidebar_advertisement", some "sidebar"⟩]
        (exProfile false "high")).visualActions.get ⟨0, by decide⟩).action =
      "keep_visible" :=
  claim_C7 _ (exProfile false "high") rfl _ (List.get_mem _ _ _)

/-- Claim C6: with the filter enabled the classifier implements the
decision table: the per-element action of `analyzeVisuals` is
`classifyAction`, advertisements and signups hide at high sensitivity
and fade to 30 percent otherwise, decorative stock photos fade to
20/50 percent or stay visible by sensitivity, and any other context
fades to 40 percent exactly at high sensitivity in the sidebar. -/
theorem claim_C6 :
    (∀ (elements : List VisualElement) (profile : CognitiveProfile) (i : Nat)
      (hi : i < elements.length)
      (hj : i < (analyzeVisuals elements profile).visualActions.length),
      profile.visuals.distractionFilter.enabled = true →
      ((analyzeVisuals elements profile).visualActions.get ⟨i, hj⟩).action =
        classifyAction (elements.get ⟨i, hi⟩).semantic_context
          profile.visuals.distractionFilter.sensitivity
          (elements.get ⟨i, hi⟩).position) ∧
    (∀ ctx ∈ ["sidebar_advertisement", "popup_advertisement", "newsletter_signup"],
      ∀ pos, classifyAction ctx "high" pos = "hide" ∧
        classifyAction ctx "low" pos = "fade_to_30_percent_opacity" ∧
        classifyAction ctx "medium" pos = "fade_to_30_percent_opacity") ∧
    (∀ pos, classifyAction "decorative_stock_photo" "high" pos =
        "fade_to_20_percent_opacity" ∧
      classifyAction "decorative_stock_photo" "medium" pos =
        "fade_to_50_percent_opacity" ∧
      classifyAction "decorative_stock_photo" "low" pos = "keep_visible") ∧
    (∀ ctx, ctx ∉ ["sidebar_advertisement", "popup_advertisement",
        "newsletter_signup", "decorative_stock_photo", "main_article_figure",
        "educational_content"] →
      classifyAction ctx "high" (some "sidebar") = "fade_to_40_percent_opacity" ∧
      (∀ sens pos, (sens = "low" ∨ sens = "medium" ∨ sens = "high") →
        ¬(sens = "high" ∧ pos = some "sidebar") →
        classifyAction ctx sens pos = "keep_visible")) := by
  refine ⟨?_, ?_, ?_, ?_⟩
  · intro elements profile i hi hj h
    simp only [List.get_eq_getElem]
    simp [analyzeVisuals, h, List.getElem_map]
  · intro ctx hctx pos
    simp only [List.mem_cons, List.not_mem_nil, or_false] at hctx
    rcases hctx with h | h | h <;> subst h <;> exact ⟨rfl, rfl, rfl⟩
  · intro pos; exact ⟨rfl, rfl, rfl⟩
  · intro ctx hctx
    simp only [List.mem_cons, List.not_mem_nil, or_false, not_or] at hctx
    obtain ⟨h1, h2, h3, h4, h5, h6⟩ := hctx
    constructor
    · simp [classifyAction, h1, h2, h3, h4, h5, h6]
    · intro sens pos hsens hnot
      rcases hsens with hs | hs | hs <;> subst hs <;>
        simp_all [classifyAction, h1, h2, h3, h4, h5, h6]

/-- Witness for C6 at concrete table rows. -/
theorem claim_C6_witness :
    classifyAction "sidebar_advertisement" "high" none = "hide" ∧
    classifyAction "decorative_stock_photo" "medium" none =
      "fade_to_50_percent_opacity" ∧
    classifyAction "weather_widget" "high" (some "sidebar") =
      "fade_to_40_percent_opacity" ∧
    classifyAction "weather_widget" "medium" (some "sidebar") = "keep_visible" :=
  ⟨(claim_C6.2.1 "sidebar_advertisement" (by simp) none).1,
   (claim_C6.2.2.1 none).2.1,
   (claim_C6.2.2.2 "weather_widget" (by simp)).1,
   (claim_C6.2.2.2 "weather_widget" (by simp)).2 "medium" (some "sidebar")
     (Or.inr (Or.inl rfl)) (by simp)⟩

/-- Claim C8 (amended): when the distraction filter is enabled every
returned `VisualAction` carries a reasoning string; when it is disabled
the returned actions carry no reasoning field at all. -/
theorem claim_C8 (elements : List VisualElement) (profile : CognitiveProfile) :
    (profile.visuals.distractionFilter.enabled = true →
      ∀ a ∈ (analyzeVisuals elements profile).visualActions,
        a.reasoning.isSome = true) ∧
    (profile.visuals.distractionFilter.enabled = false →
      ∀ a ∈ (analyzeVisuals elements profile).visualActions,
        a.reasoning = none) := by
  constructor
  · intro h a ha
    simp only [analyzeVisuals, h, Bool.true_eq_false, if_false, List.mem_map] at ha
    obtain ⟨el, -, rfl⟩ := ha
    rfl
  · intro h a ha
    simp only [analyzeVisuals, h, if_true, eq_self_iff_true, List.mem_map] at ha
    obtain ⟨el, -, rfl⟩ := ha
    rfl

/-- Counterexample to C8 as stated: with the filter disabled the
returned action for a concrete element has no reasoning string. -/
theorem claim_C8_cex :
    ¬ (∀ (elements : List VisualElement) (profile : CognitiveProfile),
        ∀ a ∈ (analyzeVisuals elements profile).visualActions,
          a.reasoning.isSome = true) := by
  intro h
  have hmem :
      ({ id := "ad1", action := "keep_visible", reasoning := none } : VisualAction) ∈
        (analyzeVisuals [⟨"ad1", "sidebar_advertisement", some "sidebar"⟩]
          (exProfile false "high")).visualActions := by decide
  have := h _ _ _ hmem
  simp at this

/-- Witness for C8 at a concrete enabled profile. -/
theorem claim_C8_witness :
    ((analyzeVisuals [⟨"ad1", "sidebar_advertisement", some "sidebar"⟩]
        (exProfile true "high")).visualActions.get ⟨0, by decide⟩).reasoning.isSome =
      true :=
  (claim_C8 _ (exProfile true "high")).1 rfl _ (List.get_mem _ _ _)

/-- Claim C10 (amended): the fallback generator enables the filter at
high sensitivity when the distraction answer contains "very distracted"
or "completely derail" (case-insensitively); at medium when it contains
"distract" but neither stronger phrase; otherwise the filter keeps its
default of disabled with sensitivity medium. -/
theorem claim_C10 (a : OnboardingAnswers) :
    (incl a.q2_distractions "very distracted" = true ∨
        incl a.q2_distractions "completely derail" = true →
      (generateMockProfile a).visuals.distractionFilter =
        { enabled := true, sensitivity := "high" }) ∧
    (incl a.q2_distractions "distract" = true →
      incl a.q2_distractions "very distracted" = false →
      incl a.q2_distractions "completely derail" = false →
      (generateMockProfile a).visuals.distractionFilter =
        { enabled := true, sensitivity := "medium" }) ∧
    (incl a.q2_distractions "very distracted" = false →
      incl a.q2_distractions "completely derail" = false →
      incl a.q2_distractions "distract" = false →
      (generateMockProfile a).visuals.distractionFilter =
        { enabled := false, sensitivity := "medium" }) := by
  refine ⟨?_, ?_, ?_⟩
  · rintro (h | h) <;> simp [generateMockProfile, h]
  · intro h h1 h2
    simp [generateMockProfile, h, h1, h2]
  · intro h1 h2 h3
    simp [generateMockProfile, h1, h2, h3]

/-- Witness for C10: a medium-tier answer and an uppercase high-tier
answer. -/
theorem claim_C10_witness :
    (generateMockProfile ⟨none, some "I get distracted easily", none⟩).visuals.distractionFilter =
        { enabled := true, sensitivity := "medium" } ∧
    (generateMockProfile ⟨none, some "VERY DISTRACTED by ads", none⟩).visuals.distractionFilter =
        { enabled := true, sensitivity := "high" } :=
  ⟨(claim_C10 _).2.1 (by decide) (by decide) (by decide),
   (claim_C10 _).1 (Or.inl (by decide))⟩

/-- Counterexample to C10 as stated: an answer containing "completely
derail" contains neither "very distracted" nor "distract", so the claim
places it in the "otherwise" branch (filter keeps its default of
disabled), but the code enables the filter at high sensitivity. -/
theorem claim_C10_cex :
    incl (some "ads completely derail me") "very distracted" = false ∧
    incl (some "ads completely derail me") "distract" = false ∧
    (generateMockProfile
        ⟨none, some "ads completely derail me", none⟩).visuals.distractionFilter =
      { enabled := true, sensitivity := "high" } :=
  ⟨by decide, by decide, by decide⟩

/-- Claim C9: whenever `transformText` returns, the result is tagged
`success` or `error`, and an error result carries the original content
unchanged (never partially transformed text). -/
theorem claim_C9 (fuel : Nat) (content : List Str) (p : RawProfile)
    (r : TransformResult) (h : transformText fuel content p = some r) :
    (r.status = "success" ∨ r.status = "error") ∧
    (r.status = "error" → r.transformedContent = content) := by
  unfold transformText at h
  cases hc : transformTextCore fuel content p with
  | none => rw [hc] at h; cases h
  | some e =>
    rw [hc] at h
    cases e with
    | ok v =>
      obtain ⟨c, log⟩ := v
      obtain ⟨rfl⟩ := Option.some.inj h
      refine ⟨Or.inl rfl, fun hfalse => ?_⟩
      simp at hfalse
    | error msg =>
      obtain ⟨rfl⟩ := Option.some.inj h
      exact ⟨Or.inr rfl, fun _ => rfl⟩

/-- Witness for C9: a profile with a missing `text` object makes the
pipeline throw, and the error result carries the original content. -/
theorem claim_C9_witness :
    ({ status := "error", transformedContent := ["Hello.".toList],
        transformations := [] } : TransformResult).transformedContent =
      ["Hello.".toList] :=
  (claim_C9 1 ["Hello.".toList] ⟨none, none⟩ _ rfl).2 rfl

/-- The chunk-building loop never terminates when `maxSentences ≤ 0`
and the index is below the sentence count: no fuel is ever enough. -/
theorem chunkLoop_none (m : Int) (hm : m ≤ 0) :
    ∀ (fuel : Nat) (i : Int) (sents : List Str),
      i < (sents.length : Int) → chunkLoop fuel m i sents = none := by
  intro fuel
  induction fuel with
  | zero => intro i sents _; rfl
  | succ fuel ih =>
    intro i sents hi
    have hrec : chunkLoop fuel m (i + m) sents = none := ih _ _ (by omega)
    simp [chunkLoop, hi, hrec]

/-- `splitIntoSentences` never returns the empty list. -/
theorem splitIntoSentences_ne_nil (s : Str) : splitIntoSentences s ≠ [] := by
  unfold splitIntoSentences
  cases h : sentencesCore s with
  | nil => simp
  | cons a l => simp

/-- One paragraph already exhausts any fuel when `maxSentences ≤ 0`. -/
theorem chunkParagraphFuel_none (fuel : Nat) (m : Int) (para : Str)
    (hm : m ≤ 0) : chunkParagraphFuel fuel m para = none := by
  unfold chunkParagraphFuel
  have h1 : splitIntoSentences para ≠ [] := splitIntoSentences_ne_nil para
  have h2 : 1 ≤ (splitIntoSentences para).length := by
    cases h : splitIntoSentences para with
    | nil => exact absurd h h1
    | cons a l => simp
  have hgt : ((splitIntoSentences para).length : Int) > m := by
    have : (1 : Int) ≤ ((splitIntoSentences para).length : Int) := by
      exact_mod_cast h2
    omega
  have hloop : chunkLoop fuel m 0 (splitIntoSentences para) = none :=
    chunkLoop_none m hm fuel 0 _ (by omega)
  simp [hgt, hloop]

/-- Folding the per-paragraph step from a dead accumulator stays dead. -/
theorem chunkFold_none (fuel : Nat) (m : Int) (l : List Str) :
    List.foldl
      (fun acc p =>
        match acc with
        | none => none
        | some (out, k) =>
          match chunkParagraphFuel fuel m p with
          | none => none
          | some (ps, split) => some (out ++ ps, k + (if split then 1 else 0)))
      none l = none := by
  induction l with
  | nil => rfl
  | cons p rest ih => simpa using ih

/-- Claim C4 (code bug): for `maxSentences ≤ 0` and any nonempty
content, `chunkParagraphs` neither clamps nor rejects — its chunk loop
never terminates, here visible as `none` for every fuel. -/
theorem claim_C4 (fuel : Nat) (m : Int) (paras : List Str)
    (hm : m ≤ 0) (hne : paras ≠ []) :
    chunkParagraphsFuel fuel m paras = none := by
  cases paras with
  | nil => exact absurd rfl hne
  | cons p rest =>
    unfold chunkParagraphsFuel
    rw [List.foldl_cons]
    have h1 : chunkParagraphFuel fuel m p = none :=
      chunkParagraphFuel_none fuel m p hm
    rw [h1]
    exact chunkFold_none fuel m rest

/-- Witness for C4: one concrete paragraph, `maxSentences = 0`. -/
theorem claim_C4_witness :
    chunkParagraphsFuel 5 0 ["Hello. World.".toList] = none :=
  claim_C4 5 0 _ (by decide) (by simp)

/-- Case-insensitively equal lists have equal length. -/
theorem ciEq_length : ∀ {a b : Str}, ciEq a b = true → a.length = b.length := by
  intro a
  induction a with
  | nil =>
    intro b h
    cases b with
    | nil => rfl
    | cons y ys => simp [ciEq] at h
  | cons x xs ih =>
    intro b h
    cases b with
    | nil => simp [ciEq] at h
    | cons y ys =>
      simp only [ciEq, Bool.and_eq_true] at h
      simp [ih h.2]

/-- A case-insensitive equality yields a prefix match. -/
theorem ciHead_of_ciEq : ∀ {seg term : Str} (post : Str),
    ciEq seg term = true → ciHead term (seg ++ post) = true := by
  intro seg
  induction seg with
  | nil =>
    intro term post h
    cases term with
    | nil => rfl
    | cons t ts => simp [ciEq] at h
  | cons a as ih =>
    intro term post h
    cases term with
    | nil => simp [ciEq] at h
    | cons t ts =>
      simp only [ciEq, Bool.and_eq_true] at h
      simp only [List.cons_append, ciHead, Bool.and_eq_true]
      exact ⟨h.1, ih post h.2⟩

/-- A prefix match decomposes the input. -/
theorem ciHead_decomp : ∀ {term s : Str}, ciHead term s = true →
    ∃ seg post, s = seg ++ post ∧ ciEq seg term = true := by
  intro term
  induction term with
  | nil => intro s _; exact ⟨[], s, rfl, rfl⟩
  | cons t ts ih =>
    intro s h
    cases s with
    | nil => simp [ciHead] at h
    | cons c cs =>
      simp only [ciHead, Bool.and_eq_true] at h
      obtain ⟨seg, post, heq, hci⟩ := ih h.2
      refine ⟨c :: seg, post, by simp [heq], ?_⟩
      simp only [ciEq, Bool.and_eq_true]
      exact ⟨h.1, hci⟩

/-- Shifting the previous-character marker across a consumed head. -/
theorem lastOr_cons (prev : Option Char) (c : Char) (pre : Str) :
    lastOr prev (c :: pre) = lastOr (some c) pre := by
  cases pre with
  | nil => rfl
  | cons d ds =>
    unfold lastOr
    rw [List.getLast?_cons_cons]
    cases h : (d :: ds).getLast? with
    | none => exact absurd h (by simp)
    | some x => rfl

/-- The scan `regex.test` embedding agrees with the declarative
whole-word occurrence predicate. -/
theorem hasScan_iff {term : Str} (hne : term ≠ []) :
    ∀ (s : Str) (prev : Option Char),
      hasScan term prev s = true ↔ OccAt term prev s := by
  intro s
  induction s with
  | nil =>
    intro prev
    constructor
    · intro h; exact absurd h (by simp [hasScan])
    · rintro ⟨pre, seg, post, hsum, hci, -, -⟩
      cases pre with
      | cons a l => simp at hsum
      | nil =>
        cases seg with
        | cons b l2 => simp at hsum
        | nil =>
          cases term with
          | nil => exact absurd rfl hne
          | cons t ts => simp [ciEq] at hci
  | cons c cs ih =>
    intro prev
    simp only [hasScan, Bool.or_eq_true]
    constructor
    · rintro (hm | hs)
      · simp only [matchAt, Bool.and_eq_true] at hm
        obtain ⟨⟨hA, hB⟩, hC⟩ := hm
        obtain ⟨seg, post, heq, hci⟩ := ciHead_decomp hB
        refine ⟨[], seg, post, by simp [heq], hci, ?_, ?_⟩
        · simpa [lastOr] using hA
        · have hlen : seg.length = term.length := ciEq_length hci
          rw [heq, ← hlen, List.drop_left] at hC
          exact hC
      · obtain ⟨pre, seg, post, hsum, hci, hb, ha⟩ := (ih (some c)).mp hs
        refine ⟨c :: pre, seg, post, by rw [hsum]; rfl, hci, ?_, ha⟩
        rwa [lastOr_cons]
    · rintro ⟨pre, seg, post, hsum, hci, hb, ha⟩
      cases pre with
      | nil =>
        left
        simp only [List.nil_append] at hsum
        have hlen : seg.length = term.length := ciEq_length hci
        rw [hsum]
        simp only [matchAt, Bool.and_eq_true]
        refine ⟨⟨?_, ciHead_of_ciEq post hci⟩, ?_⟩
        · simpa [lastOr] using hb
        · rw [← hlen, List.drop_left]
          exact ha
      | cons p pre' =>
        right
        simp only [List.cons_append] at hsum
        injection hsum with h1 h2
        subst h1
        exact (ih (some c)).mpr
          ⟨pre', seg, post, h2, hci, by rwa [lastOr_cons] at hb, ha⟩

/-- Text without a whole-word occurrence is returned unchanged by the
replacement scan (for any fuel). -/
theorem replaceScan_eq_self {term rep : Str} :
    ∀ (fuel : Nat) (prev : Option Char) (s : Str),
      hasScan term prev s = false → replaceScan fuel term rep prev s = s := by
  intro fuel
  induction fuel with
  | zero => intro prev s _; rfl
  | succ fuel ih =>
    intro prev s h
    cases s with
    | nil => rfl
    | cons c cs =>
      simp only [hasScan, Bool.or_eq_false_iff] at h
      obtain ⟨h1, h2⟩ := h
      simp only [replaceScan, h1, Bool.false_eq_true, if_false]
      exact congrArg (c :: ·) (ih (some c) cs h2)

/-- The log of the vocabulary fold is the image of a sublist of the
table: at most one entry per table pair, in table order. -/
theorem simplify_log_spec :
    ∀ (pairs : List (String × String)) (acc : Str × List String),
      ∃ sub, List.Sublist sub pairs ∧
        (pairs.foldl simplifyStep acc).2 =
          acc.2 ++ sub.map (fun pr => vocabLogEntry pr.1 pr.2) := by
  intro pairs
  induction pairs with
  | nil => intro acc; exact ⟨[], List.Sublist.refl _, by simp⟩
  | cons pr rest ih =>
    intro acc
    rw [List.foldl_cons]
    by_cases h : hasWholeWordCI pr.1.toList acc.1 = true
    · have hstep : simplifyStep acc pr =
          (replaceAllWW pr.1.toList (spanFor pr.1 pr.2) acc.1,
            acc.2 ++ [vocabLogEntry pr.1 pr.2]) := by
        unfold simplifyStep
        rw [if_pos h]
      obtain ⟨sub, hsub, heq⟩ := ih (simplifyStep acc pr)
      refine ⟨pr :: sub, List.Sublist.cons₂ _ hsub, ?_⟩
      rw [heq, hstep]
      simp
    · have hstep : simplifyStep acc pr = acc := by
        unfold simplifyStep
        rw [if_neg h]
      obtain ⟨sub, hsub, heq⟩ := ih (simplifyStep acc pr)
      refine ⟨sub, List.Sublist.cons _ hsub, ?_⟩
      rw [hstep] at heq
      rw [hstep]
      exact heq

/-- The log of the analogy fold is the image of a sublist of the
analogy table. -/
theorem analogy_log_spec :
    ∀ (pairs : List (String × String)) (acc : Str × List String),
      ∃ sub, List.Sublist sub pairs ∧
        (pairs.foldl analogyStep acc).2 =
          acc.2 ++ sub.map (fun pr => analogyLogEntry pr.1) := by
  intro pairs
  induction pairs with
  | nil => intro acc; exact ⟨[], List.Sublist.refl _, by simp⟩
  | cons pr rest ih =>
    intro acc
    rw [List.foldl_cons]
    by_cases h : hasWholeWordCI pr.1.toList acc.1 = true
    · have hstep : analogyStep acc pr =
          (replaceAllWW pr.1.toList (analogyMarker pr.1 pr.2) acc.1,
            acc.2 ++ [analogyLogEntry pr.1]) := by
        unfold analogyStep
        rw [if_pos h]
      obtain ⟨sub, hsub, heq⟩ := ih (analogyStep acc pr)
      refine ⟨pr :: sub, List.Sublist.cons₂ _ hsub, ?_⟩
      rw [heq, hstep]
      simp
    · have hstep : analogyStep acc pr = acc := by
        unfold analogyStep
        rw [if_neg h]
      obtain ⟨sub, hsub, heq⟩ := ih (analogyStep acc pr)
      refine ⟨sub, List.Sublist.cons _ hsub, ?_⟩
      rw [hstep] at heq
      rw [hstep]
      exact heq

/-- The vocabulary log never repeats an entry. -/
theorem vocab_log_nodup (content : Str) (level : String) :
    (simplifyVocabulary content level).2.Nodup := by
  obtain ⟨sub, hsub, heq⟩ := simplify_log_spec (vocabularyMappings level) (content, [])
  unfold simplifyVocabulary
  rw [heq]
  simp only [List.nil_append]
  refine List.Nodup.sublist (hsub.map _) ?_
  by_cases h1 : level = "basic"
  · subst h1; decide
  · by_cases h2 : level = "intermediate"
    · subst h2; decide
    · simp [vocabularyMappings, h1, h2]

/-- Every vocabulary log entry is the entry of a table pair. -/
theorem vocab_log_mem (content : Str) (level : String) :
    ∀ e ∈ (simplifyVocabulary content level).2,
      ∃ pr ∈ vocabularyMappings level, e = vocabLogEntry pr.1 pr.2 := by
  obtain ⟨sub, hsub, heq⟩ := simplify_log_spec (vocabularyMappings level) (content, [])
  intro e he
  unfold simplifyVocabulary at he
  rw [heq] at he
  simp only [List.nil_append, List.mem_map] at he
  obtain ⟨pr, hpr, rfl⟩ := he
  exact ⟨pr, hsub.subset hpr, rfl⟩

/-- The analogy log never repeats an entry. -/
theorem analogy_log_nodup (content : Str) :
    (addAnalogies content).2.Nodup := by
  obtain ⟨sub, hsub, heq⟩ := analogy_log_spec analogyMap (content, [])
  unfold addAnalogies
  rw [heq]
  simp only [List.nil_append]
  refine List.Nodup.sublist (hsub.map _) ?_
  decide

/-- Every analogy log entry is the entry of a table concept. -/
theorem analogy_log_mem (content : Str) :
    ∀ e ∈ (addAnalogies content).2,
      ∃ pr ∈ analogyMap, e = analogyLogEntry pr.1 := by
  obtain ⟨sub, hsub, heq⟩ := analogy_log_spec analogyMap (content, [])
  intro e he
  unfold addAnalogies at he
  rw [heq] at he
  simp only [List.nil_append, List.mem_map] at he
  obtain ⟨pr, hpr, rfl⟩ := he
  exact ⟨pr, hsub.subset hpr, rfl⟩

/-- A content in which no concept occurs is returned unchanged with an
empty log. -/
theorem analogy_foldl_id :
    ∀ (pairs : List (String × String)) (acc : Str × List String),
      (∀ pr ∈ pairs, hasWholeWordCI pr.1.toList acc.1 = false) →
      pairs.foldl analogyStep acc = acc := by
  intro pairs
  induction pairs with
  | nil => intro acc _; rfl
  | cons pr rest ih =>
    intro acc h
    rw [List.foldl_cons]
    have h1 : hasWholeWordCI pr.1.toList acc.1 = false :=
      h pr (List.mem_cons_self _ _)
    have hne : ¬ (hasWholeWordCI pr.1.toList acc.1 = true) := by
      rw [h1]; exact Bool.false_ne_true
    have hstep : analogyStep acc pr = acc := by
      unfold analogyStep
      rw [if_neg hne]
    rw [hstep]
    exact ih acc (fun q hq => h q (List.mem_cons_of_mem _ hq))

/-- Claim C2 (amended): `addAnalogies` appends the analogy marker after
every whole-word case-insensitive occurrence of each concept (the
replacement is global, not first-only), pushes exactly one log entry
per concept annotated regardless of the number of occurrences, and
leaves content without occurrences unchanged. -/
theorem claim_C2 (content : Str) :
    (addAnalogies content).2.Nodup ∧
    (∀ e ∈ (addAnalogies content).2, ∃ pr ∈ analogyMap, e = analogyLogEntry pr.1) ∧
    ((addAnalogies
        "We study photosynthesis. Later photosynthesis repeats.".toList).1.count
        '💡' = 2 ∧
      (addAnalogies
        "We study photosynthesis. Later photosynthesis repeats.".toList).2 =
        [analogyLogEntry "photosynthesis"]) ∧
    (∀ s : Str, (∀ pr ∈ analogyMap, hasWholeWordCI pr.1.toList s = false) →
      addAnalogies s = (s, [])) := by
  refine ⟨analogy_log_nodup content, analogy_log_mem content,
    ⟨by decide, by decide⟩, ?_⟩
  intro s h
  exact analogy_foldl_id analogyMap (s, []) h

/-- Witness for C2: a content without any table concept is returned
unchanged with an empty log. -/
theorem claim_C2_witness :
    addAnalogies "Nothing relevant here.".toList =
      ("Nothing relevant here.".toList, []) :=
  (claim_C2 []).2.2.2 "Nothing relevant here.".toList (by decide)

/-- Counterexample to C2 as stated: the input contains the concept
"photosynthesis" twice and no marker character; the output carries two
markers (one per occurrence), not one after the first occurrence only —
while the log has a single entry. -/
theorem claim_C2_cex :
    "We study photosynthesis. Later photosynthesis repeats.".toList.count
        '💡' = 0 ∧
    (addAnalogies
        "We study photosynthesis. Later photosynthesis repeats.".toList).1.count
        '💡' = 2 ∧
    (addAnalogies
        "We study photosynthesis. Later photosynthesis repeats.".toList).2.length
        = 1 :=
  ⟨by decide, by decide, by decide⟩

/-- Claim C3: `simplifyVocabulary` performs case-insensitive whole-word
replacement: the test agrees with the declarative occurrence predicate,
text without a whole-word occurrence (for instance "ubiquitously"
against the entry "ubiquitous") is unchanged, every occurrence of a
matched term is replaced (both occurrences in the concrete instance,
matching case-insensitively), and the log holds exactly one entry of
the form "<complex>" → "<simple>" per distinct replaced term. -/
theorem claim_C3 (content : Str) (level : String) :
    (∀ (term : Str) (prev : Option Char) (s : Str), term ≠ [] →
      (hasScan term prev s = true ↔ OccAt term prev s)) ∧
    (∀ (term rep : Str) (fuel : Nat) (prev : Option Char) (s : Str),
      hasScan term prev s = false → replaceScan fuel term rep prev s = s) ∧
    ((simplifyVocabulary content level).2.Nodup ∧
      ∀ e ∈ (simplifyVocabulary content level).2,
        ∃ pr ∈ vocabularyMappings level, e = vocabLogEntry pr.1 pr.2) ∧
    simplifyVocabulary "Ubiquitously significant.".toList "basic" =
      ("Ubiquitously significant.".toList, []) ∧
    simplifyVocabulary "Ubiquitous and ubiquitous.".toList "basic" =
      (spanFor "ubiquitous" "everywhere" ++ " and ".toList ++
        spanFor "ubiquitous" "everywhere" ++ ".".toList,
       [vocabLogEntry "ubiquitous" "everywhere"]) := by
  refine ⟨fun term prev s hne => hasScan_iff hne s prev,
    fun term rep fuel prev s h => replaceScan_eq_self fuel prev s h,
    ⟨vocab_log_nodup content level, vocab_log_mem content level⟩,
    by decide, by decide⟩

/-- Witness for C3: the scan leaves a concrete match-free text
unchanged, discharging the no-occurrence hypothesis. -/
theorem claim_C3_witness :
    replaceScan 5 "ubiquitous".toList [] none "hello".toList =
      "hello".toList :=
  (claim_C3 [] "basic").2.1 "ubiquitous".toList [] 5 none "hello".toList
    (by decide)

/-- takeWhile stops immediately on a failing head. -/
theorem takeWhile_head_false {p : Char → Bool} {c : Char} (l : Str)
    (h : p c = false) : (c :: l).takeWhile p = [] := by
  simp [List.takeWhile_cons, h]

/-- dropWhile keeps a list whose head fails the predicate. -/
theorem dropWhile_head_false {p : Char → Bool} {c : Char} (l : Str)
    (h : p c = false) : (c :: l).dropWhile p = c :: l := by
  simp [List.dropWhile_cons, h]

/-- takeWhile passes over a fully satisfying prefix. -/
theorem takeWhile_all_append {p : Char → Bool} :
    ∀ (u v : Str), (∀ c ∈ u, p c = true) →
      (u ++ v).takeWhile p = u ++ v.takeWhile p := by
  intro u
  induction u with
  | nil => intro v _; rfl
  | cons a u ih =>
    intro v h
    have ha : p a = true := h a (List.mem_cons_self _ _)
    simp only [List.cons_append, List.takeWhile_cons, ha, if_true]
    rw [ih v (fun c hc => h c (List.mem_cons_of_mem _ hc))]

/-- dropWhile consumes a fully satisfying prefix. -/
theorem dropWhile_all_append {p : Char → Bool} :
    ∀ (u v : Str), (∀ c ∈ u, p c = true) →
      (u ++ v).dropWhile p = v.dropWhile p := by
  intro u
  induction u with
  | nil => intro v _; rfl
  | cons a u ih =>
    intro v h
    have ha : p a = true := h a (List.mem_cons_self _ _)
    simp only [List.cons_append, List.dropWhile_cons, ha, if_true]
    exact ih v (fun c hc => h c (List.mem_cons_of_mem _ hc))

/-- takeWhile keeps a fully satisfying list. -/
theorem takeWhile_all {p : Char → Bool} (l : Str)
    (h : ∀ c ∈ l, p c = true) : l.takeWhile p = l := by
  have := takeWhile_all_append l [] h
  simpa using this

/-- dropWhile consumes a fully satisfying list. -/
theorem dropWhile_all {p : Char → Bool} (l : Str)
    (h : ∀ c ∈ l, p c = true) : l.dropWhile p = [] := by
  have := dropWhile_all_append l [] h
  simpa using this

/-- The head surviving a dropWhile fails the predicate. -/
theorem dropWhile_head_not (p : Char → Bool) :
    ∀ (l : Str) {d : Char} {ds : Str}, l.dropWhile p = d :: ds → p d = false := by
  intro l
  induction l with
  | nil => intro d ds h; cases h
  | cons a l ih =>
    intro d ds h
    rw [List.dropWhile_cons] at h
    cases hpa : p a with
    | true => rw [hpa] at h; simp only [if_true] at h; exact ih h
    | false =>
      rw [hpa] at h
      simp only [Bool.false_eq_true, if_false, List.cons.injEq] at h
      rw [← h.1]
      exact hpa

/-- dropWhile distributes over an append whose suffix it cannot enter. -/
theorem dropWhile_append_stop {p : Char → Bool} :
    ∀ (u v : Str), v.dropWhile p = v →
      (u ++ v).dropWhile p = u.dropWhile p ++ v := by
  intro u
  induction u with
  | nil => intro v h; simpa using h
  | cons a u ih =>
    intro v h
    simp only [List.cons_append, List.dropWhile_cons]
    cases hpa : p a with
    | true => simpa using ih v h
    | false => simp

/-- Terminator characters are not whitespace. -/
theorem term_not_ws {c : Char} (h : isTermChar c = true) :
    c.isWhitespace = false := by
  unfold isTermChar at h
  simp only [Bool.or_eq_true, decide_eq_true_eq] at h
  rcases h with (h | h) | h <;> subst h <;> decide

/-- The sentence scan of the empty string is empty. -/
theorem sentencesGo_nil (fuel : Nat) : sentencesGo fuel [] = [] := by
  cases fuel <;> rfl

/-- Grouping preserves the elements: the groups flatten back to the
list. -/
theorem chunksGo_flatten {α : Type} (m : Nat) (hm : 1 ≤ m) :
    ∀ (fuel : Nat) (l : List α), l.length ≤ fuel →
      (chunksGo fuel m l).flatten = l := by
  intro fuel
  induction fuel with
  | zero =>
    intro l h
    have : l = [] := List.length_eq_zero.mp (Nat.le_zero.mp h)
    subst this
    rfl
  | succ fuel ih =>
    intro l h
    cases l with
    | nil => rfl
    | cons x xs =>
      simp only [chunksGo, List.flatten_cons]
      rw [ih _ (by simp only [List.length_drop, List.length_cons] at *; omega)]
      exact List.take_append_drop m (x :: xs)

/-- The number of groups is the ceiling of length over group size. -/
theorem chunksGo_length {α : Type} (m : Nat) (hm : 1 ≤ m) :
    ∀ (fuel : Nat) (l : List α), l.length ≤ fuel →
      (chunksGo fuel m l).length = (l.length + m - 1) / m := by
  intro fuel
  induction fuel with
  | zero =>
    intro l h
    have : l = [] := List.length_eq_zero.mp (Nat.le_zero.mp h)
    subst this
    simp [chunksGo, Nat.div_eq_of_lt (by omega : m - 1 < m)]
  | succ fuel ih =>
    intro l h
    cases l with
    | nil => simp [chunksGo, Nat.div_eq_of_lt (by omega : m - 1 < m)]
    | cons x xs =>
      simp only [chunksGo, List.length_cons]
      rw [ih _ (by simp only [List.length_drop, List.length_cons] at *; omega)]
      simp only [List.length_drop, List.length_cons]
      have harg : xs.length + 1 + m - 1 = (xs.length + 1 - 1) + m := by omega
      rw [harg, Nat.add_div_right _ (by omega : 0 < m)]
      by_cases hc : xs.length + 1 ≤ m
      · have h1 : xs.length + 1 - m = 0 := by omega
        rw [h1]
        simp only [Nat.zero_add]
        rw [Nat.div_eq_of_lt (by omega : m - 1 < m),
          Nat.div_eq_of_lt (by omega : xs.length + 1 - 1 < m)]
      · have h1 : xs.length + 1 - m + m - 1 = (xs.length + 1 - m - 1) + m := by omega
        rw [h1, Nat.add_div_right _ (by omega : 0 < m)]
        have h2 : xs.length + 1 - 1 = (xs.length + 1 - m - 1) + m := by omega
        rw [h2, Nat.add_div_right _ (by omega : 0 < m)]

/-- Every group is nonempty and holds at most `m` elements. -/
theorem chunksGo_groups {α : Type} (m : Nat) (hm : 1 ≤ m) :
    ∀ (fuel : Nat) (l : List α) (g : List α), g ∈ chunksGo fuel m l →
      g.length ≤ m ∧ g ≠ [] := by
  intro fuel
  induction fuel with
  | zero => intro l g h; cases h
  | succ fuel ih =>
    intro l g h
    cases l with
    | nil => cases h
    | cons x xs =>
      simp only [chunksGo, List.mem_cons] at h
      rcases h with h | h
      · subst h
        constructor
        · simp only [List.length_take, List.length_cons]
          omega
        · cases m with
          | zero => omega
          | succ m => simp [List.take_cons]
      · exact ih _ _ h

/-- The grouping does not depend on the fuel once it is sufficient. -/
theorem chunksGo_fuel_eq {α : Type} (m : Nat) (hm : 1 ≤ m) :
    ∀ (f1 f2 : Nat) (l : List α), l.length ≤ f1 → l.length ≤ f2 →
      chunksGo f1 m l = chunksGo f2 m l := by
  intro f1
  induction f1 with
  | zero =>
    intro f2 l h1 h2
    have : l = [] := List.length_eq_zero.mp (Nat.le_zero.mp h1)
    subst this
    cases f2 <;> rfl
  | succ f1 ih =>
    intro f2 l h1 h2
    cases l with
    | nil => cases f2 <;> rfl
    | cons x xs =>
      cases f2 with
      | zero => simp at h2
      | succ f2 =>
        simp only [chunksGo]
        congr 1
        exact ih f2 _
          (by simp only [List.length_drop, List.length_cons] at *; omega)
          (by simp only [List.length_drop, List.length_cons] at *; omega)

/-- Trailing trim is a no-op after a nonempty terminator run. -/
theorem revTrim_eq {t : Str} (htt : ∀ c ∈ t, isTermChar c = true)
    (htne : t ≠ []) (u : Str) :
    ((u ++ t).reverse.dropWhile Char.isWhitespace).reverse = u ++ t := by
  cases hrev : t.reverse with
  | nil => exact absurd (by simpa using congrArg List.reverse hrev) htne
  | cons y ys =>
    have hy : y ∈ t := by
      have : y ∈ t.reverse := by rw [hrev]; exact List.mem_cons_self _ _
      exact List.mem_reverse.mp this
    have hyw : y.isWhitespace = false := term_not_ws (htt y hy)
    have h1 : (u ++ t).reverse.dropWhile Char.isWhitespace = (u ++ t).reverse := by
      rw [List.reverse_append, hrev]
      simp only [List.cons_append]
      exact dropWhile_head_false _ hyw
    rw [h1, List.reverse_reverse]

/-- A good sentence is already trimmed. -/
theorem trim_good {x : Str} (hg : goodSentence x) : trimStr x = x := by
  obtain ⟨a, w, t, hx, -, hanw, -, htne, htt⟩ := hg
  unfold trimStr
  have h1 : x.dropWhile Char.isWhitespace = x := by
    rw [hx]
    simp only [List.cons_append]
    exact dropWhile_head_false _ hanw
  rw [h1, hx]
  exact revTrim_eq htt htne (a :: w)

/-- Trimming removes exactly the joining space before a good sentence. -/
theorem trim_space_good {x : Str} (hg : goodSentence x) :
    trimStr (' ' :: x) = x := by
  obtain ⟨a, w, t, hx, -, hanw, -, htne, htt⟩ := hg
  unfold trimStr
  have h1 : (' ' :: x).dropWhile Char.isWhitespace = x := by
    rw [List.dropWhile_cons]
    simp only [show (' ' : Char).isWhitespace = true from rfl, if_true]
    rw [hx]
    simp only [List.cons_append]
    exact dropWhile_head_false _ hanw
  rw [h1, hx]
  exact revTrim_eq htt htne (a :: w)

/-- Every match of the sentence regex is a terminator-free body
followed by a nonempty terminator run. -/
theorem sentencesGo_struct :
    ∀ (fuel : Nat) (s x : Str), x ∈ sentencesGo fuel s →
      ∃ w t, x = w ++ t ∧ (∀ c ∈ w, isTermChar c = false) ∧
        t ≠ [] ∧ (∀ c ∈ t, isTermChar c = true) := by
  intro fuel
  induction fuel with
  | zero => intro s x h; cases h
  | succ fuel ih =>
    intro s x h
    unfold sentencesGo at h
    by_cases h1 : s.dropWhile isTermChar = []
    · rw [if_pos h1] at h; cases h
    · rw [if_neg h1] at h
      by_cases h2 :
          (s.dropWhile isTermChar).dropWhile (fun y => !isTermChar y) = []
      · rw [if_pos h2] at h; cases h
      · rw [if_neg h2] at h
        rcases List.mem_cons.mp h with h | h
        · subst h
          refine ⟨_, _, rfl, ?_, ?_, ?_⟩
          · intro ch hch
            have := List.mem_takeWhile_imp hch
            simpa using this
          · obtain ⟨d, ds, hdds⟩ : ∃ d ds,
                (s.dropWhile isTermChar).dropWhile (fun y => !isTermChar y) =
                  d :: ds := by
              cases hx : (s.dropWhile isTermChar).dropWhile
                  (fun y => !isTermChar y) with
              | nil => exact absurd hx h2
              | cons d ds => exact ⟨d, ds, rfl⟩
            have hd : isTermChar d = true := by
              have := dropWhile_head_not (fun y => !isTermChar y) _ hdds
              simpa using this
            rw [hdds]
            simp [List.takeWhile_cons, hd]
          · intro ch hch; exact List.mem_takeWhile_imp hch
        · exact ih _ _ h

/-- Join of a two-or-more list. -/
theorem joinSpace_cons₂ (s r : Str) (rs : List Str) :
    joinSpace (s :: r :: rs) = s ++ ' ' :: joinSpace (r :: rs) := rfl

/-- A join of sentences of length at least two is at least as long as
the number of sentences. -/
theorem joinSpace_length_ge :
    ∀ (g : List Str), (∀ x ∈ g, 2 ≤ x.length) →
      g.length ≤ (joinSpace g).length := by
  intro g
  induction g with
  | nil => intro _; simp [joinSpace]
  | cons s rest ih =>
    intro h
    have hs := h s (List.mem_cons_self _ _)
    cases rest with
    | nil =>
      simp only [joinSpace, List.length_cons, List.length_nil]
      omega
    | cons r rs =>
      have hr := ih (fun x hx => h x (List.mem_cons_of_mem _ hx))
      rw [joinSpace_cons₂]
      simp only [List.length_append, List.length_cons] at *
      omega

/-- One scan step over a well-formed sentence followed by a suffix the
terminator run cannot absorb. -/
theorem sentencesGo_step (fuel : Nat) (u t rest2 : Str)
    (hune : u ≠ []) (hu : ∀ c ∈ u, isTermChar c = false)
    (htne : t ≠ []) (htt : ∀ c ∈ t, isTermChar c = true)
    (hr1 : rest2.dropWhile isTermChar = rest2)
    (hr2 : rest2.takeWhile isTermChar = []) :
    sentencesGo (fuel + 1) (u ++ t ++ rest2) =
      (u ++ t) :: sentencesGo fuel rest2 := by
  obtain ⟨h0, u0, rfl⟩ : ∃ h0 u0, u = h0 :: u0 := by
    cases u with
    | nil => exact absurd rfl hune
    | cons h0 u0 => exact ⟨h0, u0, rfl⟩
  obtain ⟨t1, t', rfl⟩ : ∃ t1 t', t = t1 :: t' := by
    cases t with
    | nil => exact absurd rfl htne
    | cons t1 t' => exact ⟨t1, t', rfl⟩
  have hh0 : isTermChar h0 = false := hu _ (List.mem_cons_self _ _)
  have ht1 : isTermChar t1 = true := htt _ (List.mem_cons_self _ _)
  have hA : ((h0 :: u0) ++ (t1 :: t') ++ rest2).dropWhile isTermChar =
      (h0 :: u0) ++ (t1 :: t') ++ rest2 := by
    simp only [List.cons_append]
    exact dropWhile_head_false _ hh0
  have hB : ((h0 :: u0) ++ (t1 :: t') ++ rest2).takeWhile
      (fun y => !isTermChar y) = h0 :: u0 := by
    rw [List.append_assoc,
      takeWhile_all_append (h0 :: u0) _ (fun c hc => by simp [hu c hc])]
    simp only [List.cons_append]
    rw [takeWhile_head_false _ (by simp [ht1])]
    simp
  have hC : ((h0 :: u0) ++ (t1 :: t') ++ rest2).dropWhile
      (fun y => !isTermChar y) = t1 :: (t' ++ rest2) := by
    rw [List.append_assoc,
      dropWhile_all_append (h0 :: u0) _ (fun c hc => by simp [hu c hc])]
    simp only [List.cons_append]
    exact dropWhile_head_false _ (by simp [ht1])
  have hD : (t1 :: (t' ++ rest2)).takeWhile isTermChar = t1 :: t' := by
    rw [← List.cons_append, takeWhile_all_append _ _ htt, hr2]
    simp
  have hE : (t1 :: (t' ++ rest2)).dropWhile isTermChar = rest2 := by
    rw [← List.cons_append, dropWhile_all_append _ _ htt, hr1]
  simp only [sentencesGo, hA, hB, hC, hD, hE]
  simp [List.append_assoc]

/-- Scanning a space-joined list of good sentences returns the
sentences, each after the first carrying its joining space. -/
theorem sentencesGo_joinAux :
    ∀ (fuel : Nat) (ss : List Str) (pre : Str), ss.length ≤ fuel →
      (∀ x ∈ ss, goodSentence x) → (pre = [] ∨ pre = [' ']) →
      sentencesGo fuel (pre ++ joinSpace ss) =
        (match ss with
         | [] => []
         | s :: rest => (pre ++ s) :: rest.map (fun x => ' ' :: x)) := by
  intro fuel
  induction fuel with
  | zero =>
    intro ss pre h hg hpre
    have hss : ss = [] := List.length_eq_zero.mp (Nat.le_zero.mp h)
    subst hss
    rcases hpre with rfl | rfl <;> rfl
  | succ fuel ih =>
    intro ss pre hlen hg hpre
    cases ss with
    | nil => rcases hpre with rfl | rfl <;> rfl
    | cons s rest =>
      obtain ⟨a, w, t, hx, hant, hanw, hwnt, htne, htt⟩ :=
        hg s (List.mem_cons_self _ _)
      have hu : ∀ c ∈ pre ++ (a :: w), isTermChar c = false := by
        intro c hc
        rcases List.mem_append.mp hc with hc | hc
        · rcases hpre with rfl | rfl
          · cases hc
          · rcases List.mem_singleton.mp hc with rfl; rfl
        · rcases List.mem_cons.mp hc with rfl | hc
          · exact hant
          · exact hwnt c hc
      have hune : pre ++ (a :: w) ≠ [] := by simp
      cases rest with
      | nil =>
        have harr : pre ++ joinSpace [s] = (pre ++ (a :: w)) ++ t ++ [] := by
          show pre ++ s = (pre ++ (a :: w)) ++ t ++ []
          rw [hx]
          simp [List.append_assoc]
        rw [harr,
          sentencesGo_step fuel (pre ++ (a :: w)) t [] hune hu htne htt rfl rfl]
        rw [sentencesGo_nil]
        simp [hx, List.append_assoc]
      | cons r rs =>
        have harr : pre ++ joinSpace (s :: r :: rs) =
            (pre ++ (a :: w)) ++ t ++ (' ' :: joinSpace (r :: rs)) := by
          rw [joinSpace_cons₂, hx]
          simp [List.append_assoc]
        have hr1 : (' ' :: joinSpace (r :: rs)).dropWhile isTermChar =
            ' ' :: joinSpace (r :: rs) := dropWhile_head_false _ rfl
        have hr2 : (' ' :: joinSpace (r :: rs)).takeWhile isTermChar = [] :=
          takeWhile_head_false _ rfl
        rw [harr, sentencesGo_step fuel _ _ _ hune hu htne htt hr1 hr2]
        have hrec := ih (r :: rs) [' ']
          (by simp only [List.length_cons] at hlen ⊢; omega)
          (fun x hxm => hg x (List.mem_cons_of_mem _ hxm)) (Or.inr rfl)
        simp only [List.singleton_append] at hrec
        rw [hrec]
        simp [hx, List.append_assoc]

/-- Splitting a space-joined chunk of good sentences recovers exactly
those sentences. -/
theorem resplit_join (g : List Str) (hgood : ∀ x ∈ g, goodSentence x)
    (hne : g ≠ []) : splitIntoSentences (joinSpace g) = g := by
  have hlen2 : ∀ x ∈ g, 2 ≤ x.length := by
    intro x hxm
    obtain ⟨a, w, t, hxe, -, -, -, htne, -⟩ := hgood x hxm
    subst hxe
    cases t with
    | nil => exact absurd rfl htne
    | cons t1 t' => simp only [List.length_append, List.length_cons]; omega
  have hfuel : g.length ≤ (joinSpace g).length := joinSpace_length_ge g hlen2
  have hcore := sentencesGo_joinAux (joinSpace g).length g [] hfuel hgood
    (Or.inl rfl)
  simp only [List.nil_append] at hcore
  cases g with
  | nil => exact absurd rfl hne
  | cons s rest =>
    unfold splitIntoSentences sentencesCore
    rw [hcore]
    simp only [List.map_cons, List.map_map]
    rw [trim_good (hgood s (List.mem_cons_self _ _))]
    congr 1
    have hmap : ∀ x ∈ rest, trimStr (' ' :: x) = x := fun x hxm =>
      trim_space_good (hgood x (List.mem_cons_of_mem _ hxm))
    calc rest.map (trimStr ∘ fun x => ' ' :: x) = rest.map id := by
          apply List.map_congr_left
          intro x hxm
          exact hmap x hxm
      _ = rest := List.map_id rest

/-- `slice(j, j + m)` with natural indices is take-after-drop. -/
theorem jsSlice_eq (l : List Str) (j m : Nat) :
    jsSlice l (j : Int) (((j + m : Nat)) : Int) = (l.drop j).take m := by
  unfold jsSlice jsSliceNorm
  rw [if_neg (by omega), if_neg (by omega)]
  rw [Int.toNat_natCast, Int.toNat_natCast]
  have htake : l.take (min (j + m) l.length) = l.take (j + m) := by
    rcases Nat.le_total (j + m) l.length with h | h
    · rw [Nat.min_eq_left h]
    · rw [Nat.min_eq_right h, List.take_of_length_le h, List.take_length]
  have hdrop : ∀ (u : List Str), u = l.take (j + m) →
      u.drop (min j l.length) = u.drop j := by
    intro u hu
    rcases Nat.le_total j l.length with h | h
    · rw [Nat.min_eq_left h]
    · rw [Nat.min_eq_right h]
      have h1 : u.length ≤ l.length := by
        rw [hu]; simp [List.length_take]
      rw [List.drop_eq_nil_of_le h1, List.drop_eq_nil_of_le (by omega)]
  rw [htake, hdrop _ rfl, List.drop_take]
  congr 1
  omega

/-- For `m ≥ 1` and enough fuel the chunk loop computes the pure
grouping, joined with spaces. -/
theorem chunkLoop_eq (m : Nat) (hm : 1 ≤ m) (sents : List Str) :
    ∀ (fuel : Nat) (j : Nat), sents.length - j < fuel →
      chunkLoop fuel (m : Int) (j : Int) sents =
        some ((chunksOf m (sents.drop j)).map joinSpace) := by
  intro fuel
  induction fuel with
  | zero => intro j h; exact absurd h (by omega)
  | succ fuel ih =>
    intro j h
    by_cases hj : j < sents.length
    · have hj' : ((j : Int) < (sents.length : Int)) := by exact_mod_cast hj
      have hcast : (j : Int) + (m : Int) = (((j + m : Nat)) : Int) := by
        push_cast; ring
      have hrec := ih (j + m) (by omega)
      unfold chunkLoop
      rw [if_pos hj', hcast, hrec, jsSlice_eq]
      have hexp : chunksOf m (sents.drop j) =
          (sents.drop j).take m :: chunksOf m (sents.drop (j + m)) := by
        unfold chunksOf
        obtain ⟨x, xs, hxx⟩ : ∃ x xs, sents.drop j = x :: xs := by
          cases hd : sents.drop j with
          | nil =>
            exfalso
            have := congrArg List.length hd
            simp only [List.length_drop, List.length_nil] at this
            omega
          | cons x xs => exact ⟨x, xs, rfl⟩
        rw [hxx, List.length_cons]
        simp only [chunksGo]
        have hdd : (x :: xs).drop m = sents.drop (j + m) := by
          rw [← hxx, List.drop_drop]
        rw [hdd]
        congr 1
        apply chunksGo_fuel_eq m hm
        · have := congrArg List.length hdd
          simp only [List.length_drop, List.length_cons] at this ⊢
          have hlx : xs.length + 1 = sents.length - j := by
            have := congrArg List.length hxx
            simp only [List.length_drop, List.length_cons] at this
            omega
          omega
        · exact Nat.le_refl _
      rw [hexp]
      simp
    · have hj' : ¬((j : Int) < (sents.length : Int)) := by omega
      unfold chunkLoop
      rw [if_neg hj']
      have hdrop : sents.drop j = [] := List.drop_eq_nil_of_le (by omega)
      rw [hdrop]
      rfl

/-- With enough fuel the faithful fuel embedding of one paragraph
computes the pure chunking. -/
theorem chunkParagraphFuel_eq (m : Nat) (hm : 1 ≤ m) (para : Str) :
    ∀ (fuel : Nat), (splitIntoSentences para).length < fuel →
      chunkParagraphFuel fuel (m : Int) para = some (chunkParagraph m para) := by
  intro fuel hf
  by_cases hn : (splitIntoSentences para).length > m
  · have hn' : ((splitIntoSentences para).length : Int) > (m : Int) := by
      exact_mod_cast hn
    have hloop := chunkLoop_eq m hm (splitIntoSentences para) fuel 0 (by omega)
    simp only [List.drop_zero] at hloop
    have hzero : ((0 : Nat) : Int) = (0 : Int) := rfl
    rw [hzero] at hloop
    simp only [chunkParagraphFuel, chunkParagraph, if_pos hn', if_pos hn, hloop]
  · have hn' : ¬(((splitIntoSentences para).length : Int) > (m : Int)) := by
      omega
    simp only [chunkParagraphFuel, chunkParagraph, if_neg hn', if_neg hn]

/-- The split flag of one paragraph. -/
theorem chunkParagraph_snd (m : Nat) (p : Str) :
    (chunkParagraph m p).2 = decide ((splitIntoSentences p).length > m) := by
  unfold chunkParagraph
  by_cases hn : (splitIntoSentences p).length > m
  · simp [hn]
  · simp [hn]

/-- `chunksCreated` counts the paragraphs whose sentence count exceeds
the limit, once per paragraph. -/
theorem chunkParagraphs_snd (m : Nat) :
    ∀ (paras : List Str) (acc : List Str × Nat),
      (List.foldl
        (fun acc p =>
          ((acc.1 ++ (chunkParagraph m p).1,
            acc.2 + (if (chunkParagraph m p).2 then 1 else 0)) : List Str × Nat))
        acc paras).2 =
      acc.2 + paras.countP (fun q => decide ((splitIntoSentences q).length > m)) := by
  intro paras
  induction paras with
  | nil => intro acc; simp
  | cons p rest ih =>
    intro acc
    rw [List.foldl_cons, ih]
    rw [List.countP_cons]
    rw [chunkParagraph_snd]
    omega

/-- Trimming a match of the sentence regex only strips leading
whitespace of the body. -/
theorem trim_struct {w t : Str} (_hw : ∀ c ∈ w, isTermChar c = false)
    (htne : t ≠ []) (htt : ∀ c ∈ t, isTermChar c = true) :
    trimStr (w ++ t) = w.dropWhile Char.isWhitespace ++ t := by
  obtain ⟨t1, t', rfl⟩ : ∃ t1 t', t = t1 :: t' := by
    cases t with
    | nil => exact absurd rfl htne
    | cons t1 t' => exact ⟨t1, t', rfl⟩
  unfold trimStr
  have h1 : (w ++ (t1 :: t')).dropWhile Char.isWhitespace =
      w.dropWhile Char.isWhitespace ++ (t1 :: t') := by
    apply dropWhile_append_stop
    exact dropWhile_head_false _ (term_not_ws (htt _ (List.mem_cons_self _ _)))
  rw [h1]
  exact revTrim_eq htt (by simp) _

/-- An extracted sentence that does not start with a terminator is a
good sentence. -/
theorem good_of_sentence {para x : Str}
    (hx : x ∈ splitIntoSentences para) (hcore : sentencesCore para ≠ [])
    (hh : headNotTerm x = true) : goodSentence x := by
  unfold splitIntoSentences at hx
  cases hsc : sentencesCore para with
  | nil => exact absurd hsc hcore
  | cons y ys =>
    rw [hsc] at hx
    simp only [List.mem_map] at hx
    obtain ⟨z, hz, rfl⟩ := hx
    have hzc : z ∈ sentencesCore para := by rw [hsc]; exact hz
    unfold sentencesCore at hzc
    obtain ⟨w, t, rfl, hw, htne, htt⟩ := sentencesGo_struct _ _ _ hzc
    rw [trim_struct hw htne htt] at hh ⊢
    cases hw' : w.dropWhile Char.isWhitespace with
    | nil =>
      exfalso
      rw [hw'] at hh
      obtain ⟨t1, t', rfl⟩ : ∃ t1 t', t = t1 :: t' := by
        cases t with
        | nil => exact absurd rfl htne
        | cons t1 t' => exact ⟨t1, t', rfl⟩
      have ht1 := htt t1 (List.mem_cons_self _ _)
      simp only [List.nil_append, headNotTerm, ht1] at hh
      cases hh
    | cons a w'' =>
      have hsub : ∀ c, c ∈ a :: w'' → c ∈ w := by
        intro c hc
        have : c ∈ w.dropWhile Char.isWhitespace := by rw [hw']; exact hc
        exact (List.dropWhile_sublist _).subset this
      refine ⟨a, w'', t, by simp [hw'], ?_, ?_, ?_, htne, htt⟩
      · exact hw a (hsub a (List.mem_cons_self _ _))
      · exact dropWhile_head_not Char.isWhitespace w hw'
      · intro c hc
        exact hw c (hsub c (List.mem_cons_of_mem _ hc))

/-- Claim C5 (amended): for maxSentences ≥ 1 and a paragraph whose
extracted sentences each are nonempty and do not start with a
terminator character, chunking preserves the sentences exactly, a
paragraph whose sentence count n exceeds the limit becomes
ceil(n / maxSentences) consecutive paragraphs of at most maxSentences
sentences each, a paragraph at or under the limit is untouched,
`chunksCreated` counts once per split paragraph, and the faithful
fuel-indexed loop computes the same result. -/
theorem claim_C5 (para : Str) (m : Nat) (hm : 1 ≤ m)
    (hgood : ∀ x ∈ splitIntoSentences para, headNotTerm x = true) :
    ((chunkParagraph m para).1.map splitIntoSentences).flatten =
        splitIntoSentences para ∧
    ((splitIntoSentences para).length > m →
      (chunkParagraph m para).1.length =
          ((splitIntoSentences para).length + m - 1) / m ∧
        (chunkParagraph m para).2 = true ∧
        ∀ q ∈ (chunkParagraph m para).1, (splitIntoSentences q).length ≤ m) ∧
    ((splitIntoSentences para).length ≤ m →
      chunkParagraph m para = ([para], false)) ∧
    (∀ paras : List Str, (chunkParagraphs m paras).2 =
      paras.countP (fun q => decide ((splitIntoSentences q).length > m))) ∧
    (∀ fuel, (splitIntoSentences para).length < fuel →
      chunkParagraphFuel fuel (m : Int) para = some (chunkParagraph m para)) := by
  have hcount : ∀ paras : List Str, (chunkParagraphs m paras).2 =
      paras.countP (fun q => decide ((splitIntoSentences q).length > m)) := by
    intro paras
    have h := chunkParagraphs_snd m paras ([], 0)
    unfold chunkParagraphs
    simpa using h
  have hfuel : ∀ fuel, (splitIntoSentences para).length < fuel →
      chunkParagraphFuel fuel (m : Int) para = some (chunkParagraph m para) :=
    fun fuel hf => chunkParagraphFuel_eq m hm para fuel hf
  by_cases hn : (splitIntoSentences para).length > m
  · have hcore : sentencesCore para ≠ [] := by
      intro hc
      unfold splitIntoSentences at hn
      rw [hc] at hn
      simp only [List.length_singleton] at hn
      omega
    have hgood' : ∀ x ∈ splitIntoSentences para, goodSentence x :=
      fun x hx => good_of_sentence hx hcore (hgood x hx)
    have hCP : chunkParagraph m para =
        ((chunksOf m (splitIntoSentences para)).map joinSpace, true) := by
      unfold chunkParagraph
      rw [if_pos hn]
    have hflat : (chunksOf m (splitIntoSentences para)).flatten =
        splitIntoSentences para := by
      unfold chunksOf
      exact chunksGo_flatten m hm _ _ (Nat.le_refl _)
    have hgrp : ∀ g ∈ chunksOf m (splitIntoSentences para),
        (∀ x ∈ g, goodSentence x) ∧ g ≠ [] ∧ g.length ≤ m := by
      intro g hg
      have hg' := hg
      unfold chunksOf at hg'
      have h1 := chunksGo_groups m hm _ _ _ hg'
      refine ⟨?_, h1.2, h1.1⟩
      intro x hx
      apply hgood'
      rw [← hflat]
      exact List.mem_flatten.mpr ⟨g, hg, hx⟩
    have hresp : ∀ g ∈ chunksOf m (splitIntoSentences para),
        splitIntoSentences (joinSpace g) = g := by
      intro g hg
      obtain ⟨hgg, hgne, -⟩ := hgrp g hg
      exact resplit_join g hgg hgne
    have hcons : ((chunkParagraph m para).1.map splitIntoSentences).flatten =
        splitIntoSentences para := by
      rw [hCP]
      simp only [List.map_map]
      have hmapid : (chunksOf m (splitIntoSentences para)).map
          (splitIntoSentences ∘ joinSpace) =
          (chunksOf m (splitIntoSentences para)).map id := by
        apply List.map_congr_left
        intro g hg
        exact hresp g hg
      rw [hmapid, List.map_id, hflat]
    refine ⟨hcons, fun _ => ⟨?_, ?_, ?_⟩, fun hle => absurd hn (by omega),
      hcount, hfuel⟩
    · rw [hCP]
      simp only [List.length_map]
      unfold chunksOf
      exact chunksGo_length m hm _ _ (Nat.le_refl _)
    · rw [hCP]
    · intro q hq
      rw [hCP] at hq
      simp only [List.mem_map] at hq
      obtain ⟨g, hg, rfl⟩ := hq
      rw [hresp g hg]
      exact (hgrp g hg).2.2
  · have hCP : chunkParagraph m para = ([para], false) := by
      unfold chunkParagraph
      rw [if_neg hn]
    refine ⟨?_, fun h => absurd h hn, fun _ => hCP, hcount, hfuel⟩
    rw [hCP]
    simp

/-- Witness for C5 at a concrete three-sentence paragraph split in
groups of two. -/
theorem claim_C5_witness :
    ((chunkParagraph 2 "One. Two. Three.".toList).1.map
        splitIntoSentences).flatten =
      splitIntoSentences "One. Two. Three.".toList ∧
    (chunkParagraph 2 "One. Two. Three.".toList).1.length = 2 :=
  ⟨(claim_C5 "One. Two. Three.".toList 2 (by decide) (by decide)).1,
   (((claim_C5 "One. Two. Three.".toList 2 (by decide) (by decide)).2.1
      (by decide)).1).trans (by decide)⟩

/-- Counterexample to C5 as stated: the paragraph "   . x. y." has
three extracted sentences, but after chunking with maxSentences = 2 the
output paragraphs hold only two sentences in total — the sentence "."
is glued to "x." when the chunk ". x." is re-split, so conservation
fails for sentences that start with a terminator. -/
theorem claim_C5_cex :
    (splitIntoSentences "   . x. y.".toList).length = 3 ∧
    ((chunkParagraph 2 "   . x. y.".toList).1.map
        splitIntoSentences).flatten.length = 2 :=
  ⟨by decide, by decide⟩

end CogniWeave
